import Mathlib

/-!
Verification development for the Yield aggregator header and the
event-driven I/O core it exposes (architecture / IPC / platform layers).

The visible source is the top-level header `yield.h`: an include guard
(`YIELD_H`) protecting three `#include` directives and nothing else.
We embed the header as a list of preprocessor lines together with a
small preprocessor semantics, and we model the event-queue / socket /
multiplexer core described by the design documents, since its code is
not part of the visible tree.
-/

/-- One line of a C/C++ header, as the preprocessor sees it: a comment,
a blank line, a guard directive, an include directive, or actual C++
code (declarations, definitions — anything that is "logic"). -/
inductive PPLine where
  | comment
  | blank
  | ifndefDir (n : String)
  | defineDir (n : String)
  | includeDir (p : String)
  | endifDir
  | cppCode (text : String)
deriving DecidableEq

/-- The lines of `yield.h`, transcribed from the source file:
two copyright comment lines, a blank line, the `YIELD_H` include guard,
and the three subsystem includes (arch, ipc, platform). -/
def yieldHLines : List PPLine :=
  [ PPLine.comment,
    PPLine.comment,
    PPLine.blank,
    PPLine.ifndefDir "YIELD_H",
    PPLine.defineDir "YIELD_H",
    PPLine.blank,
    PPLine.includeDir "yield/arch.h",
    PPLine.includeDir "yield/ipc.h",
    PPLine.includeDir "yield/platform.h",
    PPLine.blank,
    PPLine.endifDir ]

/-- The path of an include directive, if the line is one. -/
def includePathOf : PPLine → Option String
  | PPLine.includeDir p => some p
  | _ => none

/-- Whether a line is C++ code rather than a comment, a blank line or a
preprocessor directive. -/
def isCppCode : PPLine → Bool
  | PPLine.cppCode _ => true
  | _ => false

/-- Preprocessor semantics for a flat (non-nested) guarded header:
`ppRun lines defs act` processes the lines with `defs` the set of
defined guard names and `act` whether the current region is active;
it returns the final defined set and the list of include paths emitted. -/
def ppRun : List PPLine → List String → Bool → List String × List String
  | [], defs, _ => (defs, [])
  | l :: rest, defs, act =>
    match l with
    | PPLine.ifndefDir n => ppRun rest defs (act && !(decide (n ∈ defs)))
    | PPLine.defineDir n =>
        if act then ppRun rest (n :: defs) act else ppRun rest defs act
    | PPLine.includeDir p =>
        let r := ppRun rest defs act
        (r.1, if act then p :: r.2 else r.2)
    | PPLine.endifDir => ppRun rest defs true
    | _ => ppRun rest defs act

/-- One textual inclusion of `yield.h` in a translation unit whose
preprocessing state is `st` (defined guard names, includes emitted so
far): runs the header's lines and appends whatever they emit. -/
def processYieldH (st : List String × List String) : List String × List String :=
  let r := ppRun yieldHLines st.1 true
  (r.1, st.2 ++ r.2)

/-- `n` successive textual inclusions of `yield.h`, starting from a
fresh translation unit (nothing defined, nothing emitted). -/
def processYieldHTimes : Nat → List String × List String
  | 0 => ([], [])
  | n + 1 => processYieldH (processYieldHTimes n)

/-!
The event-driven I/O core. The code of the architecture / IPC layers is
not part of the visible tree (only the aggregator header is), so the
definitions below are modelled from the specification's words.
-/

/-- Modelled from the spec: an interest/readiness mask over the three
conditions read / write / error (the IPC layer's interest sets; its code
is missing from the tree). -/
structure EventMask where
  rd : Bool
  wr : Bool
  er : Bool
deriving DecidableEq

/-- Modelled from the spec: the intersection of two masks (interest mask
with the currently-ready conditions). -/
def maskInter (m n : EventMask) : EventMask :=
  ⟨m.rd && n.rd, m.wr && n.wr, m.er && n.er⟩

/-- Modelled from the spec: whether a mask reports at least one of the
three conditions. -/
def maskSome (m : EventMask) : Bool :=
  m.rd || m.wr || m.er

/-- Modelled from the spec: one Event Queue registry entry — an interest
mask and a completion-action reference (the action is opaque here, kept
as a numeric reference). -/
structure Entry where
  mask : EventMask
  action : Nat
deriving DecidableEq

/-- Modelled from the spec: the state of one Event Queue — its registry,
a table from Handle id (a stable numeric index) to registry entry. -/
structure QueueState where
  registry : List (Nat × Entry)
deriving DecidableEq

/-- Modelled from the spec: the error taxonomy of the registration
interface (RegistrationError / NotRegisteredError). -/
inductive QueueError where
  | registrationError
  | notRegisteredError
deriving DecidableEq

/-- The keys (Handle ids) of a registry table. -/
def keysOf (reg : List (Nat × Entry)) : List Nat :=
  reg.map Prod.fst

/-- Look up the entry registered for a Handle id, if any. -/
def lookupEntry : List (Nat × Entry) → Nat → Option Entry
  | [], _ => none
  | p :: rest, h => if p.1 = h then some p.2 else lookupEntry rest h

/-- Replace the first entry for key `h` with `e`, or append a fresh
entry if `h` is absent: the registry is a map, never a multiset. -/
def setEntry : List (Nat × Entry) → Nat → Entry → List (Nat × Entry)
  | [], h, e => [(h, e)]
  | p :: rest, h, e =>
      if p.1 = h then (h, e) :: rest else p :: setEntry rest h e

/-- Remove every entry for key `h` from the registry. -/
def removeKey : List (Nat × Entry) → Nat → List (Nat × Entry)
  | [], _ => []
  | p :: rest, h =>
      if p.1 = h then removeKey rest h else p :: removeKey rest h

/-- Modelled from the spec: `register(handle, interest_mask, action)` on
an Event Queue (IPC-layer code missing from the tree) — fails with
`RegistrationError` if the handle is already closed (`isOp h = false`);
otherwise updates the existing entry or inserts a fresh one. -/
def eqRegister (isOp : Nat → Bool) (q : QueueState) (h : Nat)
    (m : EventMask) (a : Nat) : Except QueueError QueueState :=
  if isOp h then Except.ok ⟨setEntry q.registry h ⟨m, a⟩⟩
  else Except.error QueueError.registrationError

/-- Modelled from the spec: `modify(handle, new_interest_mask)` — fails
with `NotRegisteredError` if the handle is absent from the registry;
otherwise replaces the interest mask, keeping the action. -/
def eqModify (q : QueueState) (h : Nat) (m : EventMask) :
    Except QueueError QueueState :=
  match lookupEntry q.registry h with
  | none => Except.error QueueError.notRegisteredError
  | some e => Except.ok ⟨setEntry q.registry h ⟨m, e.action⟩⟩

/-- Modelled from the spec: `deregister(handle)` — idempotent, a no-op
when the handle is not registered. -/
def eqDeregister (q : QueueState) (h : Nat) : QueueState :=
  ⟨removeKey q.registry h⟩

/-- Modelled from the spec: the poll timeout — zero (return at once), a
finite bound in milliseconds, or infinite (block until an event or an
explicit wake-up). -/
inductive PollTimeout where
  | zero
  | finite (ms : Nat)
  | infinite
deriving DecidableEq

/-- Modelled from the spec: the (handle, ready-mask) pairs a poll
reports, given the OS readiness conditions `ready` — one pair for each
registered handle whose interest mask meets a ready condition. -/
def readyEvents (ready : Nat → EventMask) : List (Nat × Entry) → List (Nat × EventMask)
  | [] => []
  | p :: rest =>
      let rm := maskInter p.2.mask (ready p.1)
      if maskSome rm then (p.1, rm) :: readyEvents ready rest
      else readyEvents ready rest

/-- Modelled from the spec: after a poll reports an error condition for
a handle, the queue treats that handle as deregistered — the registry
keeps only the entries whose reported mask carried no error. -/
def dropErrored (ready : Nat → EventMask) : List (Nat × Entry) → List (Nat × Entry)
  | [] => []
  | p :: rest =>
      if (maskInter p.2.mask (ready p.1)).er then dropErrored ready rest
      else p :: dropErrored ready rest

/-- Modelled from the spec: `poll(timeout)` on an Event Queue whose
registered handles currently satisfy the OS readiness conditions
`ready`. The first component is `some events` when the call returns
(zero or finite timeout, or at least one event); `none` models an
infinite-timeout call that blocks awaiting an event or a wake-up. The
second component is the registry afterwards: handles that reported an
error condition have been auto-deregistered. -/
def eqPoll (q : QueueState) (ready : Nat → EventMask) (t : PollTimeout) :
    Option (List (Nat × EventMask)) × QueueState :=
  let evs := readyEvents ready q.registry
  match t with
  | PollTimeout.zero => (some evs, ⟨dropErrored ready q.registry⟩)
  | PollTimeout.finite _ => (some evs, ⟨dropErrored ready q.registry⟩)
  | PollTimeout.infinite =>
      if evs = [] then (none, q) else (some evs, ⟨dropErrored ready q.registry⟩)

/-- The events a finished poll reported (empty when the call blocked). -/
def pollEvents (r : Option (List (Nat × EventMask)) × QueueState) :
    List (Nat × EventMask) :=
  r.1.getD []

/-- Remove every occurrence of `h` from a list of Handle ids. -/
def removeNat : List Nat → Nat → List Nat
  | [], _ => []
  | x :: rest, h => if x = h then removeNat rest h else x :: removeNat rest h

/-- Modelled from the spec: the state of the Handle layer and its Event
Queue — the set of currently-open Handle ids, and the queue's registry
(the Handle / Event Queue code is missing from the tree). -/
structure SysState where
  liveHandles : List Nat
  q : QueueState
deriving DecidableEq

/-- Whether Handle `h` is open (`is_open()`). -/
def sysIsOpen (s : SysState) (h : Nat) : Bool :=
  decide (h ∈ s.liveHandles)

/-- Modelled from the spec: a successful `open()` — the Handle becomes
open; opening an already-open id changes nothing. -/
def sysOpen (s : SysState) (h : Nat) : SysState :=
  if h ∈ s.liveHandles then s else ⟨h :: s.liveHandles, s.q⟩

/-- Modelled from the spec: `close()` — idempotent; on an open Handle it
first deregisters the Handle from the owning Event Queue, then releases
the descriptor (the open flag is cleared); on a closed Handle it is a
no-op. -/
def sysClose (s : SysState) (h : Nat) : SysState :=
  if h ∈ s.liveHandles then
    ⟨removeNat s.liveHandles h, eqDeregister s.q h⟩
  else s

/-- Modelled from the spec: a registration request routed to the queue —
refused (state unchanged, error surfaced) when the Handle is closed. -/
def sysRegister (s : SysState) (h : Nat) (m : EventMask) (a : Nat) : SysState :=
  match eqRegister (sysIsOpen s) s.q h m a with
  | Except.ok q2 => ⟨s.liveHandles, q2⟩
  | Except.error _ => s

/-- Modelled from the spec: an explicit deregistration request. -/
def sysDeregister (s : SysState) (h : Nat) : SysState :=
  ⟨s.liveHandles, eqDeregister s.q h⟩

/-- Modelled from the spec: a zero-timeout poll and its effect on the
registry (error-reporting handles auto-deregistered). -/
def sysPoll (s : SysState) (ready : Nat → EventMask) : SysState :=
  ⟨s.liveHandles, (eqPoll s.q ready PollTimeout.zero).2⟩

/-- Modelled from the spec: the operations of the Handle / Event Queue
surface that application code may issue, in any order. -/
inductive SysOp where
  | opn (h : Nat)
  | cls (h : Nat)
  | reg (h : Nat) (m : EventMask) (a : Nat)
  | dereg (h : Nat)
  | poll (ready : Nat → EventMask)

/-- Apply one operation to the system state. -/
def applySysOp (s : SysState) : SysOp → SysState
  | SysOp.opn h => sysOpen s h
  | SysOp.cls h => sysClose s h
  | SysOp.reg h m a => sysRegister s h m a
  | SysOp.dereg h => sysDeregister s h
  | SysOp.poll ready => sysPoll s ready

/-- Apply a sequence of operations, left to right. -/
def applySysOps (s : SysState) (ops : List SysOp) : SysState :=
  ops.foldl applySysOp s

/-- Modelled from the spec: the Multiplexer dispatch path — it iterates
a stable snapshot of ready (handle, mask) pairs and, for each, checks
`is_open()` and the registry before invoking the registered completion
action; closed or deregistered Handles are silently skipped. Returns
the (handle, action) invocations actually performed. -/
def dispatchInvoked (s : SysState) (snapshot : List (Nat × EventMask)) :
    List (Nat × Nat) :=
  match snapshot with
  | [] => []
  | p :: rest =>
      if sysIsOpen s p.1 then
        match lookupEntry s.q.registry p.1 with
        | some e => (p.1, e.action) :: dispatchInvoked s rest
        | none => dispatchInvoked s rest
      else dispatchInvoked s rest

/-- Modelled from the spec: the Socket connection-state enum. -/
inductive SockState where
  | unconnected
  | connecting
  | connected
  | closing
  | closed
deriving DecidableEq

/-- Modelled from the spec: the events that drive the Socket state
machine — a `connect` call, resolution of the OS-level handshake
(success or failure), `shutdown`/peer-close, and the final drain. -/
inductive SockEvent where
  | connectCall
  | osSuccess
  | osFailure
  | shutdownOrPeerClose
  | drainComplete
deriving DecidableEq

/-- Modelled from the spec: the Socket state machine (Socket code is
missing from the tree) — UNCONNECTED →connect→ CONNECTING; CONNECTING
→success→ CONNECTED, →failure→ CLOSED; CONNECTED →shutdown/peer-close→
CLOSING →drain→ CLOSED; any other event leaves the state unchanged. -/
def sockStep : SockState → SockEvent → SockState
  | SockState.unconnected, SockEvent.connectCall => SockState.connecting
  | SockState.connecting, SockEvent.osSuccess => SockState.connected
  | SockState.connecting, SockEvent.osFailure => SockState.closed
  | SockState.connected, SockEvent.shutdownOrPeerClose => SockState.closing
  | SockState.closing, SockEvent.drainComplete => SockState.closed
  | s, _ => s

/-- Run the Socket state machine over a sequence of events. -/
def sockRun (s : SockState) (evs : List SockEvent) : SockState :=
  evs.foldl sockStep s

/-- Modelled from the spec: one register or deregister call on an Event
Queue (the sequences quantified over by the registry-set property). -/
inductive QOp where
  | reg (h : Nat) (m : EventMask) (a : Nat)
  | dereg (h : Nat)

/-- Apply one register/deregister call to an Event Queue; a refused
registration (closed handle) leaves the registry unchanged. -/
def applyQOp (isOp : Nat → Bool) (q : QueueState) : QOp → QueueState
  | QOp.reg h m a =>
      match eqRegister isOp q h m a with
      | Except.ok q2 => q2
      | Except.error _ => q
  | QOp.dereg h => eqDeregister q h

/-- Apply a sequence of register/deregister calls, left to right. -/
def applyQOps (isOp : Nat → Bool) (q : QueueState) (ops : List QOp) : QueueState :=
  ops.foldl (applyQOp isOp) q

/-- The mathematical set semantics a register/deregister sequence
implies: each register is a union with the singleton of its handle, each
deregister a set difference. -/
def qopSetSem : List QOp → Finset Nat → Finset Nat
  | [], s => s
  | QOp.reg h _ _ :: rest, s => qopSetSem rest (insert h s)
  | QOp.dereg h :: rest, s => qopSetSem rest (s.erase h)

/-- The closed-Handle invariant of the spec: every Handle present in the
Event Queue registry is open. -/
def SysInv (s : SysState) : Prop :=
  ∀ h : Nat, h ∈ keysOf s.q.registry → h ∈ s.liveHandles

theorem processYieldH_of_defined (defs out : List String)
    (hin : "YIELD_H" ∈ defs) :
    processYieldH (defs, out) = (defs, out) := by
  simp [processYieldH, ppRun, hin]

theorem processYieldH_of_not_defined (defs out : List String)
    (hout : "YIELD_H" ∉ defs) :
    processYieldH (defs, out) =
      ("YIELD_H" :: defs,
        out ++ ["yield/arch.h", "yield/ipc.h", "yield/platform.h"]) := by
  simp [processYieldH, ppRun, hout]

theorem mem_fst_processYieldH (st : List String × List String) :
    "YIELD_H" ∈ (processYieldH st).1 := by
  obtain ⟨defs, out⟩ := st
  by_cases hin : "YIELD_H" ∈ defs
  · rw [processYieldH_of_defined defs out hin]; exact hin
  · rw [processYieldH_of_not_defined defs out hin]; exact List.mem_cons_self _ _

/-- Claim C1: `yield.h` is a pure aggregator — it contains no C++ code of
its own, its include directives are exactly the three subsystem headers
(architecture/threading, IPC/socket, platform abstraction), and a fresh
inclusion emits exactly those three includes. -/
theorem yieldH_pure_aggregator :
    yieldHLines.filterMap includePathOf =
      ["yield/arch.h", "yield/ipc.h", "yield/platform.h"]
    ∧ yieldHLines.all (fun l => !isCppCode l) = true
    ∧ (processYieldH ([], [])).2 =
        ["yield/arch.h", "yield/ipc.h", "yield/platform.h"] := by
  refine ⟨by decide, by decide, ?_⟩
  rw [processYieldH_of_not_defined [] [] (by decide)]
  rfl

/-- Claim C10: including `yield.h` is idempotent within one translation
unit: a second inclusion is the identity on the preprocessing state, and
for every `n ≥ 1`, `n` inclusions produce the same state as exactly one. -/
theorem yieldH_inclusion_idempotent :
    (∀ st : List String × List String,
        processYieldH (processYieldH st) = processYieldH st)
    ∧ (∀ n : Nat, processYieldHTimes (n + 1) = processYieldHTimes 1) := by
  have hidem : ∀ st : List String × List String,
      processYieldH (processYieldH st) = processYieldH st := by
    intro st
    exact processYieldH_of_defined (processYieldH st).1 (processYieldH st).2
      (mem_fst_processYieldH st)
  refine ⟨hidem, ?_⟩
  intro n
  induction n with
  | zero => rfl
  | succ k ih =>
      show processYieldH (processYieldHTimes (k + 1)) = _
      rw [ih]
      exact hidem ([], [])

theorem keysOf_nil : keysOf [] = [] := rfl

theorem keysOf_cons (p : Nat × Entry) (rest : List (Nat × Entry)) :
    keysOf (p :: rest) = p.1 :: keysOf rest := rfl

theorem mem_keysOf {reg : List (Nat × Entry)} {k : Nat} :
    k ∈ keysOf reg ↔ ∃ e, (k, e) ∈ reg := by
  simp only [keysOf, List.mem_map]
  constructor
  · rintro ⟨⟨k1, e⟩, hmem, rfl⟩
    exact ⟨e, hmem⟩
  · rintro ⟨e, hmem⟩
    exact ⟨(k, e), hmem, rfl⟩

theorem lookupEntry_eq_none {reg : List (Nat × Entry)} {h : Nat} :
    lookupEntry reg h = none ↔ h ∉ keysOf reg := by
  induction reg with
  | nil => simp [lookupEntry, keysOf]
  | cons p rest ih =>
      rw [keysOf_cons]
      by_cases hp : p.1 = h
      · simp [lookupEntry, hp]
      · rw [show lookupEntry (p :: rest) h = lookupEntry rest h from by
          simp [lookupEntry, hp]]
        rw [ih]
        simp [List.mem_cons, Ne.symm hp]

theorem keysOf_setEntry_of_mem {reg : List (Nat × Entry)} {h : Nat} (e : Entry)
    (hmem : h ∈ keysOf reg) : keysOf (setEntry reg h e) = keysOf reg := by
  induction reg with
  | nil => simp [keysOf] at hmem
  | cons p rest ih =>
      by_cases hp : p.1 = h
      · rw [show setEntry (p :: rest) h e = (h, e) :: rest from by simp [setEntry, hp]]
        rw [keysOf_cons, keysOf_cons, hp]
      · rw [show setEntry (p :: rest) h e = p :: setEntry rest h e from by
          simp [setEntry, hp]]
        have hrest : h ∈ keysOf rest := by
          rw [keysOf_cons, List.mem_cons] at hmem
          rcases hmem with h1 | h2
          · exact absurd h1.symm hp
          · exact h2
        rw [keysOf_cons, keysOf_cons, ih hrest]

theorem keysOf_setEntry_of_not_mem {reg : List (Nat × Entry)} {h : Nat} (e : Entry)
    (hmem : h ∉ keysOf reg) : keysOf (setEntry reg h e) = keysOf reg ++ [h] := by
  induction reg with
  | nil => simp [setEntry, keysOf]
  | cons p rest ih =>
      have hp : p.1 ≠ h := by
        intro hcon
        exact hmem (by rw [keysOf_cons, hcon]; exact List.mem_cons_self h _)
      have hrest : h ∉ keysOf rest := by
        intro hcon
        exact hmem (by rw [keysOf_cons]; exact List.mem_cons_of_mem _ hcon)
      rw [show setEntry (p :: rest) h e = p :: setEntry rest h e from by
        simp [setEntry, hp]]
      rw [keysOf_cons, keysOf_cons, ih hrest]
      rfl

theorem lookupEntry_setEntry (reg : List (Nat × Entry)) (h : Nat) (e : Entry) :
    lookupEntry (setEntry reg h e) h = some e := by
  induction reg with
  | nil => simp [setEntry, lookupEntry]
  | cons p rest ih =>
      by_cases hp : p.1 = h
      · rw [show setEntry (p :: rest) h e = (h, e) :: rest from by simp [setEntry, hp]]
        simp [lookupEntry]
      · rw [show setEntry (p :: rest) h e = p :: setEntry rest h e from by
          simp [setEntry, hp]]
        simp [lookupEntry, hp, ih]

theorem nodup_keysOf_setEntry {reg : List (Nat × Entry)} {h : Nat} (e : Entry)
    (hnd : (keysOf reg).Nodup) : (keysOf (setEntry reg h e)).Nodup := by
  by_cases hmem : h ∈ keysOf reg
  · rw [keysOf_setEntry_of_mem e hmem]; exact hnd
  · rw [keysOf_setEntry_of_not_mem e hmem]
    simpa [List.nodup_append] using ⟨hnd, fun hcon => hmem hcon⟩

theorem toFinset_keysOf_setEntry (reg : List (Nat × Entry)) (h : Nat) (e : Entry) :
    (keysOf (setEntry reg h e)).toFinset = insert h (keysOf reg).toFinset := by
  by_cases hmem : h ∈ keysOf reg
  · rw [keysOf_setEntry_of_mem e hmem]
    exact (Finset.insert_eq_self.mpr (List.mem_toFinset.mpr hmem)).symm
  · rw [keysOf_setEntry_of_not_mem e hmem]
    simp [List.toFinset_append, Finset.union_comm, Finset.insert_eq]

theorem mem_keysOf_removeKey {reg : List (Nat × Entry)} {h k : Nat} :
    k ∈ keysOf (removeKey reg h) ↔ k ∈ keysOf reg ∧ k ≠ h := by
  induction reg with
  | nil => simp [removeKey, keysOf]
  | cons p rest ih =>
      by_cases hp : p.1 = h
      · rw [show removeKey (p :: rest) h = removeKey rest h from by
          simp [removeKey, hp]]
        rw [ih, keysOf_cons, List.mem_cons]
        subst hp
        constructor
        · rintro ⟨h1, h2⟩
          exact ⟨Or.inr h1, h2⟩
        · rintro ⟨rfl | h1, h2⟩
          · exact absurd rfl h2
          · exact ⟨h1, h2⟩
      · rw [show removeKey (p :: rest) h = p :: removeKey rest h from by
          simp [removeKey, hp]]
        rw [keysOf_cons, keysOf_cons, List.mem_cons, List.mem_cons, ih]
        constructor
        · rintro (rfl | ⟨h1, h2⟩)
          · exact ⟨Or.inl rfl, hp⟩
          · exact ⟨Or.inr h1, h2⟩
        · rintro ⟨rfl | h1, h2⟩
          · exact Or.inl rfl
          · exact Or.inr (ih.mpr ⟨h1, h2⟩ |> ih.mp)

theorem removeKey_of_not_mem {reg : List (Nat × Entry)} {h : Nat}
    (hmem : h ∉ keysOf reg) : removeKey reg h = reg := by
  induction reg with
  | nil => rfl
  | cons p rest ih =>
      have hp : p.1 ≠ h := by
        intro hcon
        exact hmem (by rw [keysOf_cons, hcon]; exact List.mem_cons_self h _)
      have hrest : h ∉ keysOf rest := by
        intro hcon
        exact hmem (by rw [keysOf_cons]; exact List.mem_cons_of_mem _ hcon)
      simp [removeKey, hp, ih hrest]

theorem removeKey_removeKey (reg : List (Nat × Entry)) (h : Nat) :
    removeKey (removeKey reg h) h = removeKey reg h :=
  removeKey_of_not_mem (fun hcon => (mem_keysOf_removeKey.mp hcon).2 rfl)

theorem nodup_keysOf_removeKey {reg : List (Nat × Entry)} (h : Nat)
    (hnd : (keysOf reg).Nodup) : (keysOf (removeKey reg h)).Nodup := by
  induction reg with
  | nil => simp [removeKey, keysOf]
  | cons p rest ih =>
      rw [keysOf_cons, List.nodup_cons] at hnd
      by_cases hp : p.1 = h
      · rw [show removeKey (p :: rest) h = removeKey rest h from by
          simp [removeKey, hp]]
        exact ih hnd.2
      · rw [show removeKey (p :: rest) h = p :: removeKey rest h from by
          simp [removeKey, hp]]
        rw [keysOf_cons, List.nodup_cons]
        exact ⟨fun hcon => hnd.1 (mem_keysOf_removeKey.mp hcon).1, ih hnd.2⟩

theorem toFinset_keysOf_removeKey (reg : List (Nat × Entry)) (h : Nat) :
    (keysOf (removeKey reg h)).toFinset = (keysOf reg).toFinset.erase h := by
  ext k
  simp [mem_keysOf_removeKey, Finset.mem_erase, and_comm]

theorem mem_removeNat {l : List Nat} {h k : Nat} :
    k ∈ removeNat l h ↔ k ∈ l ∧ k ≠ h := by
  induction l with
  | nil => simp [removeNat]
  | cons x rest ih =>
      by_cases hx : x = h
      · rw [show removeNat (x :: rest) h = removeNat rest h from by
          simp [removeNat, hx]]
        rw [ih, List.mem_cons]
        subst hx
        constructor
        · rintro ⟨h1, h2⟩
          exact ⟨Or.inr h1, h2⟩
        · rintro ⟨rfl | h1, h2⟩
          · exact absurd rfl h2
          · exact ⟨h1, h2⟩
      · rw [show removeNat (x :: rest) h = x :: removeNat rest h from by
          simp [removeNat, hx]]
        rw [List.mem_cons, List.mem_cons, ih]
        constructor
        · rintro (rfl | ⟨h1, h2⟩)
          · exact ⟨Or.inl rfl, hx⟩
          · exact ⟨Or.inr h1, h2⟩
        · rintro ⟨rfl | h1, h2⟩
          · exact Or.inl rfl
          · exact Or.inr ⟨h1, h2⟩

theorem mem_readyEvents {ready : Nat → EventMask} {reg : List (Nat × Entry)}
    {k : Nat} {rm : EventMask} :
    (k, rm) ∈ readyEvents ready reg ↔
      ∃ e, (k, e) ∈ reg ∧ rm = maskInter e.mask (ready k) ∧ maskSome rm = true := by
  induction reg with
  | nil => simp [readyEvents]
  | cons p rest ih =>
      by_cases hs : maskSome (maskInter p.2.mask (ready p.1)) = true
      · rw [show readyEvents ready (p :: rest) =
            (p.1, maskInter p.2.mask (ready p.1)) :: readyEvents ready rest from by
          simp [readyEvents, hs]]
        rw [List.mem_cons, ih]
        constructor
        · rintro (heq | ⟨e, hmem, h1, h2⟩)
          · rw [Prod.mk.injEq] at heq
            obtain ⟨rfl, rfl⟩ := heq
            exact ⟨p.2, List.mem_cons_self _ _, rfl, hs⟩
          · exact ⟨e, List.mem_cons_of_mem _ hmem, h1, h2⟩
        · rintro ⟨e, hmem, rfl, h2⟩
          rcases List.mem_cons.mp hmem with heq | hmem'
          · exact Or.inl (by rw [← heq])
          · exact Or.inr ⟨e, hmem', rfl, h2⟩
      · rw [show readyEvents ready (p :: rest) = readyEvents ready rest from by
          simp [readyEvents, hs]]
        rw [ih]
        constructor
        · rintro ⟨e, hmem, h1, h2⟩
          exact ⟨e, List.mem_cons_of_mem _ hmem, h1, h2⟩
        · rintro ⟨e, hmem, rfl, h2⟩
          rcases List.mem_cons.mp hmem with heq | hmem'
          · exfalso
            rw [← heq] at hs
            exact hs h2
          · exact ⟨e, hmem', rfl, h2⟩

theorem mem_keysOf_dropErrored {ready : Nat → EventMask}
    {reg : List (Nat × Entry)} {k : Nat}
    (hmem : k ∈ keysOf (dropErrored ready reg)) : k ∈ keysOf reg := by
  induction reg with
  | nil => simp [dropErrored, keysOf] at hmem
  | cons p rest ih =>
      by_cases he : (maskInter p.2.mask (ready p.1)).er = true
      · rw [show dropErrored ready (p :: rest) = dropErrored ready rest from by
          simp [dropErrored, he]] at hmem
        rw [keysOf_cons]
        exact List.mem_cons_of_mem _ (ih hmem)
      · rw [show dropErrored ready (p :: rest) = p :: dropErrored ready rest from by
          simp [dropErrored, he]] at hmem
        rw [keysOf_cons, List.mem_cons] at hmem ⊢
        rcases hmem with h1 | h2
        · exact Or.inl h1
        · exact Or.inr (ih h2)

theorem not_mem_keysOf_dropErrored {ready : Nat → EventMask}
    {reg : List (Nat × Entry)} {k : Nat} {e : Entry}
    (hnd : (keysOf reg).Nodup) (hmem : (k, e) ∈ reg)
    (herr : (maskInter e.mask (ready k)).er = true) :
    k ∉ keysOf (dropErrored ready reg) := by
  induction reg with
  | nil => simp at hmem
  | cons p rest ih =>
      rw [keysOf_cons, List.nodup_cons] at hnd
      rcases List.mem_cons.mp hmem with heq | hmem'
      · have hpk : p.1 = k := by rw [← heq]
        have hpe : p.2 = e := by rw [← heq]
        have hdrop : dropErrored ready (p :: rest) = dropErrored ready rest := by
          simp [dropErrored, hpk, hpe, herr]
        rw [hdrop]
        intro hcon
        apply hnd.1
        rw [hpk]
        exact mem_keysOf_dropErrored hcon
      · have hkrest : k ∈ keysOf rest := mem_keysOf.mpr ⟨e, hmem'⟩
        have hpk : p.1 ≠ k := fun hcon => hnd.1 (hcon ▸ hkrest)
        by_cases he : (maskInter p.2.mask (ready p.1)).er = true
        · rw [show dropErrored ready (p :: rest) = dropErrored ready rest from by
            simp [dropErrored, he]]
          exact ih hnd.2 hmem'
        · rw [show dropErrored ready (p :: rest) = p :: dropErrored ready rest from by
            simp [dropErrored, he]]
          rw [keysOf_cons, List.mem_cons]
          rintro (hcon | hcon)
          · exact hpk hcon.symm
          · exact ih hnd.2 hmem' hcon

theorem applyQOps_keys (ops : List QOp) :
    ∀ q : QueueState, (keysOf q.registry).Nodup →
      (keysOf (applyQOps (fun _ => true) q ops).registry).toFinset =
          qopSetSem ops (keysOf q.registry).toFinset
      ∧ (keysOf (applyQOps (fun _ => true) q ops).registry).Nodup := by
  induction ops with
  | nil => intro q hnd; exact ⟨rfl, hnd⟩
  | cons op rest ih =>
      intro q hnd
      cases op with
      | reg h m a =>
          have hred : applyQOps (fun _ => true) q (QOp.reg h m a :: rest) =
              applyQOps (fun _ => true) ⟨setEntry q.registry h ⟨m, a⟩⟩ rest := rfl
          have hq2 := ih ⟨setEntry q.registry h ⟨m, a⟩⟩ (nodup_keysOf_setEntry _ hnd)
          rw [hred]
          refine ⟨?_, hq2.2⟩
          rw [hq2.1]
          rw [show qopSetSem (QOp.reg h m a :: rest) (keysOf q.registry).toFinset =
              qopSetSem rest (insert h (keysOf q.registry).toFinset) from rfl]
          rw [show keysOf (QueueState.mk (setEntry q.registry h ⟨m, a⟩)).registry =
              keysOf (setEntry q.registry h ⟨m, a⟩) from rfl]
          rw [toFinset_keysOf_setEntry]
      | dereg h =>
          have hred : applyQOps (fun _ => true) q (QOp.dereg h :: rest) =
              applyQOps (fun _ => true) ⟨removeKey q.registry h⟩ rest := rfl
          have hq2 := ih ⟨removeKey q.registry h⟩ (nodup_keysOf_removeKey h hnd)
          rw [hred]
          refine ⟨?_, hq2.2⟩
          rw [hq2.1]
          rw [show qopSetSem (QOp.dereg h :: rest) (keysOf q.registry).toFinset =
              qopSetSem rest ((keysOf q.registry).toFinset.erase h) from rfl]
          rw [show keysOf (QueueState.mk (removeKey q.registry h)).registry =
              keysOf (removeKey q.registry h) from rfl]
          rw [toFinset_keysOf_removeKey]

/-- Claim C2: for every sequence of register and deregister calls on an
Event Queue (with open handles, so every call is accepted), the set of
currently-registered Handles afterwards equals the set unions and
differences the sequence implies; the registry keeps at most one entry
per Handle (its key list stays duplicate-free); and registering an
already-registered Handle updates its entry in place — same keys, new
interest mask — rather than creating a duplicate. -/
theorem eventQueue_registry_set_semantics (ops : List QOp) (q : QueueState)
    (hnd : (keysOf q.registry).Nodup) :
    (keysOf (applyQOps (fun _ => true) q ops).registry).toFinset =
        qopSetSem ops (keysOf q.registry).toFinset
    ∧ (keysOf (applyQOps (fun _ => true) q ops).registry).Nodup
    ∧ (∀ h m a q2, h ∈ keysOf q.registry →
        eqRegister (fun _ => true) q h m a = Except.ok q2 →
        keysOf q2.registry = keysOf q.registry
        ∧ lookupEntry q2.registry h = some ⟨m, a⟩) := by
  refine ⟨(applyQOps_keys ops q hnd).1, (applyQOps_keys ops q hnd).2, ?_⟩
  intro h m a q2 hmem heq
  have hok : eqRegister (fun _ => true) q h m a =
      Except.ok (⟨setEntry q.registry h ⟨m, a⟩⟩ : QueueState) := rfl
  rw [hok] at heq
  injection heq with heq2
  subst heq2
  exact ⟨keysOf_setEntry_of_mem _ hmem, lookupEntry_setEntry _ _ _⟩

theorem eventQueue_registry_set_semantics_witness :
    (keysOf (⟨[]⟩ : QueueState).registry).Nodup
    ∧ (keysOf (applyQOps (fun _ => true) ⟨[]⟩
        [QOp.reg 1 ⟨true, false, false⟩ 0,
         QOp.reg 2 ⟨true, true, false⟩ 1,
         QOp.reg 1 ⟨false, true, false⟩ 2,
         QOp.dereg 2]).registry).toFinset =
      qopSetSem
        [QOp.reg 1 ⟨true, false, false⟩ 0,
         QOp.reg 2 ⟨true, true, false⟩ 1,
         QOp.reg 1 ⟨false, true, false⟩ 2,
         QOp.dereg 2] (keysOf (⟨[]⟩ : QueueState).registry).toFinset :=
  ⟨by decide,
   (eventQueue_registry_set_semantics
      [QOp.reg 1 ⟨true, false, false⟩ 0,
       QOp.reg 2 ⟨true, true, false⟩ 1,
       QOp.reg 1 ⟨false, true, false⟩ 2,
       QOp.dereg 2] ⟨[]⟩ (by decide)).1⟩

/-- Claim C3: `close()` is idempotent — the second (and hence every
later) close of the same Handle is a no-op, leaving the Handle and the
whole system state exactly as after the first close. -/
theorem handle_close_idempotent (s : SysState) (h : Nat) :
    sysClose (sysClose s h) h = sysClose s h := by
  by_cases hmem : h ∈ s.liveHandles
  · rw [show sysClose s h = ⟨removeNat s.liveHandles h, eqDeregister s.q h⟩ from by
      simp [sysClose, hmem]]
    have hout : h ∉ removeNat s.liveHandles h :=
      fun hcon => (mem_removeNat.mp hcon).2 rfl
    simp [sysClose, hout]
  · rw [show sysClose s h = s from by simp [sysClose, hmem]]
    simp [sysClose, hmem]

theorem sockStep_late (s : SockState) (e : SockEvent)
    (hs : s = SockState.connected ∨ s = SockState.closing ∨ s = SockState.closed) :
    sockStep s e = SockState.connected ∨ sockStep s e = SockState.closing
      ∨ sockStep s e = SockState.closed := by
  rcases hs with rfl | rfl | rfl <;> cases e <;> simp [sockStep]

theorem sockRun_late (evs : List SockEvent) :
    ∀ s : SockState,
      (s = SockState.connected ∨ s = SockState.closing ∨ s = SockState.closed) →
      (sockRun s evs = SockState.connected ∨ sockRun s evs = SockState.closing
        ∨ sockRun s evs = SockState.closed) := by
  induction evs with
  | nil => intro s hs; exact hs
  | cons e rest ih =>
      intro s hs
      have hred : sockRun s (e :: rest) = sockRun (sockStep s e) rest := rfl
      rw [hred]
      exact ih _ (sockStep_late s e hs)

/-- Claim C4: the Socket connection-state machine is one-directional —
once a run has reached CONNECTED, no continuation re-enters UNCONNECTED
or CONNECTING, and the single-step transitions out of CONNECTED lead
only to CLOSING, out of CLOSING only to CLOSED, and CLOSED is final. -/
theorem socket_connected_no_reentry (s0 : SockState) (pre post : List SockEvent)
    (hconn : sockRun s0 pre = SockState.connected) :
    (sockRun s0 (pre ++ post) ≠ SockState.unconnected
      ∧ sockRun s0 (pre ++ post) ≠ SockState.connecting)
    ∧ (∀ e, (sockStep SockState.connected e = SockState.connected
            ∨ sockStep SockState.connected e = SockState.closing)
        ∧ (sockStep SockState.closing e = SockState.closing
            ∨ sockStep SockState.closing e = SockState.closed)
        ∧ sockStep SockState.closed e = SockState.closed) := by
  constructor
  · have happ : sockRun s0 (pre ++ post) = sockRun (sockRun s0 pre) post := by
      simp [sockRun, List.foldl_append]
    rw [happ, hconn]
    rcases sockRun_late post SockState.connected (Or.inl rfl) with h1 | h1 | h1 <;>
      rw [h1] <;> exact ⟨by simp, by simp⟩
  · intro e
    refine ⟨?_, ?_, ?_⟩ <;> cases e <;> simp [sockStep]

theorem socket_connected_no_reentry_witness :
    sockRun SockState.unconnected [SockEvent.connectCall, SockEvent.osSuccess] =
        SockState.connected
    ∧ (sockRun SockState.unconnected
          ([SockEvent.connectCall, SockEvent.osSuccess] ++
            [SockEvent.shutdownOrPeerClose, SockEvent.drainComplete]) ≠
        SockState.unconnected
      ∧ sockRun SockState.unconnected
          ([SockEvent.connectCall, SockEvent.osSuccess] ++
            [SockEvent.shutdownOrPeerClose, SockEvent.drainComplete]) ≠
        SockState.connecting) :=
  ⟨by decide,
   (socket_connected_no_reentry SockState.unconnected
      [SockEvent.connectCall, SockEvent.osSuccess]
      [SockEvent.shutdownOrPeerClose, SockEvent.drainComplete] (by decide)).1⟩

theorem sysInv_applySysOp {s : SysState} (hinv : SysInv s) (op : SysOp) :
    SysInv (applySysOp s op) := by
  cases op with
  | opn h =>
      by_cases hmem : h ∈ s.liveHandles
      · rw [show applySysOp s (SysOp.opn h) = s from by simp [applySysOp, sysOpen, hmem]]
        exact hinv
      · rw [show applySysOp s (SysOp.opn h) = ⟨h :: s.liveHandles, s.q⟩ from by
          simp [applySysOp, sysOpen, hmem]]
        intro k hk
        exact List.mem_cons_of_mem _ (hinv k hk)
  | cls h =>
      by_cases hmem : h ∈ s.liveHandles
      · rw [show applySysOp s (SysOp.cls h) =
            ⟨removeNat s.liveHandles h, eqDeregister s.q h⟩ from by
          simp [applySysOp, sysClose, hmem]]
        intro k hk
        have h1 := mem_keysOf_removeKey.mp hk
        exact mem_removeNat.mpr ⟨hinv k h1.1, h1.2⟩
      · rw [show applySysOp s (SysOp.cls h) = s from by simp [applySysOp, sysClose, hmem]]
        exact hinv
  | reg h m a =>
      cases hop : sysIsOpen s h with
      | true =>
          rw [show applySysOp s (SysOp.reg h m a) =
              ⟨s.liveHandles, ⟨setEntry s.q.registry h ⟨m, a⟩⟩⟩ from by
            simp [applySysOp, sysRegister, eqRegister, hop]]
          intro k hk
          by_cases hmem : h ∈ keysOf s.q.registry
          · rw [show keysOf (⟨s.liveHandles, ⟨setEntry s.q.registry h ⟨m, a⟩⟩⟩ :
                SysState).q.registry = keysOf (setEntry s.q.registry h ⟨m, a⟩) from
              rfl, keysOf_setEntry_of_mem _ hmem] at hk
            exact hinv k hk
          · rw [show keysOf (⟨s.liveHandles, ⟨setEntry s.q.registry h ⟨m, a⟩⟩⟩ :
                SysState).q.registry = keysOf (setEntry s.q.registry h ⟨m, a⟩) from
              rfl, keysOf_setEntry_of_not_mem _ hmem, List.mem_append] at hk
            rcases hk with hk1 | hk2
            · exact hinv k hk1
            · rw [List.mem_singleton] at hk2
              subst hk2
              exact of_decide_eq_true hop
      | false =>
          rw [show applySysOp s (SysOp.reg h m a) = s from by
            simp [applySysOp, sysRegister, eqRegister, hop]]
          exact hinv
  | dereg h =>
      intro k hk
      exact hinv k (mem_keysOf_removeKey.mp hk).1
  | poll ready =>
      intro k hk
      exact hinv k (mem_keysOf_dropErrored hk)

theorem sysInv_applySysOps (ops : List SysOp) :
    ∀ s : SysState, SysInv s → SysInv (applySysOps s ops) := by
  induction ops with
  | nil => intro s hinv; exact hinv
  | cons op rest ih =>
      intro s hinv
      exact ih _ (sysInv_applySysOp hinv op)

/-- Claim C5: a closed Handle is never present in the Event Queue
registry — the invariant "every registered Handle is open" is preserved
by every reachable sequence of operations, so a Handle whose open flag
is false is absent from the registry; and `close()` itself removes the
Handle from the registry before releasing it. -/
theorem closed_handle_never_registered (ops : List SysOp) (s : SysState)
    (hinv : SysInv s) :
    SysInv (applySysOps s ops)
    ∧ (∀ h, sysIsOpen (applySysOps s ops) h = false →
        h ∉ keysOf (applySysOps s ops).q.registry)
    ∧ (∀ h, h ∉ keysOf (sysClose s h).q.registry) := by
  have hinv2 := sysInv_applySysOps ops s hinv
  refine ⟨hinv2, ?_, ?_⟩
  · intro h hop hcon
    exact of_decide_eq_false hop (hinv2 h hcon)
  · intro h
    by_cases hmem : h ∈ s.liveHandles
    · rw [show sysClose s h = ⟨removeNat s.liveHandles h, eqDeregister s.q h⟩ from by
        simp [sysClose, hmem]]
      exact fun hcon => (mem_keysOf_removeKey.mp hcon).2 rfl
    · rw [show sysClose s h = s from by simp [sysClose, hmem]]
      exact fun hcon => hmem (hinv h hcon)

theorem closed_handle_never_registered_witness :
    SysInv ⟨[], ⟨[]⟩⟩
    ∧ (1 : Nat) ∉ keysOf (applySysOps ⟨[], ⟨[]⟩⟩
        [SysOp.opn 1, SysOp.reg 1 ⟨true, false, false⟩ 0, SysOp.cls 1]).q.registry :=
  ⟨fun h hk => absurd hk (List.not_mem_nil h),
   (closed_handle_never_registered
      [SysOp.opn 1, SysOp.reg 1 ⟨true, false, false⟩ 0, SysOp.cls 1]
      ⟨[], ⟨[]⟩⟩ (fun h hk => absurd hk (List.not_mem_nil h))).2.1 1 (by decide)⟩

/-- Claim C6: registration errors arise exactly on the spec's
preconditions — `register` fails with `RegistrationError` iff the handle
is closed, `modify` fails with `NotRegisteredError` iff the handle is
absent from the registry, and `deregister` is idempotent and a no-op on
an unregistered handle. -/
theorem eventQueue_error_conditions (isOp : Nat → Bool) (q : QueueState)
    (h : Nat) (m m2 : EventMask) (a : Nat) :
    (eqRegister isOp q h m a = Except.error QueueError.registrationError
      ↔ isOp h = false)
    ∧ (eqModify q h m2 = Except.error QueueError.notRegisteredError
      ↔ h ∉ keysOf q.registry)
    ∧ eqDeregister (eqDeregister q h) h = eqDeregister q h
    ∧ (h ∉ keysOf q.registry → eqDeregister q h = q) := by
  refine ⟨?_, ?_, ?_, ?_⟩
  · cases hop : isOp h <;> simp [eqRegister, hop]
  · cases hl : lookupEntry q.registry h with
    | none => simp [eqModify, hl, lookupEntry_eq_none.mp hl]
    | some e =>
        have hmem : h ∈ keysOf q.registry := by
          by_contra hc
          rw [lookupEntry_eq_none.mpr hc] at hl
          exact Option.noConfusion hl
        simp [eqModify, hl, hmem]
  · simp [eqDeregister, removeKey_removeKey]
  · intro hmem
    show (⟨removeKey q.registry h⟩ : QueueState) = q
    rw [removeKey_of_not_mem hmem]

theorem eventQueue_error_conditions_witness :
    eqRegister (fun _ => false) ⟨[]⟩ 1 ⟨true, false, false⟩ 0 =
        Except.error QueueError.registrationError
    ∧ eqDeregister (⟨[]⟩ : QueueState) 1 = ⟨[]⟩ :=
  ⟨(eventQueue_error_conditions (fun _ => false) ⟨[]⟩ 1
      ⟨true, false, false⟩ ⟨true, false, false⟩ 0).1.mpr rfl,
   (eventQueue_error_conditions (fun _ => false) ⟨[]⟩ 1
      ⟨true, false, false⟩ ⟨true, false, false⟩ 0).2.2.2 (by decide)⟩

/-- Claim C7: a zero-timeout poll always returns at once (its result is
`some` list, never the blocking outcome), and the list holds exactly the
currently-ready events: one per registered entry whose interest mask
meets a ready condition — possibly the empty list. -/
theorem poll_zero_nonblocking (q : QueueState) (ready : Nat → EventMask) :
    (eqPoll q ready PollTimeout.zero).1 =
        some (pollEvents (eqPoll q ready PollTimeout.zero))
    ∧ (∀ k rm, (k, rm) ∈ pollEvents (eqPoll q ready PollTimeout.zero) ↔
        ∃ e, (k, e) ∈ q.registry ∧ rm = maskInter e.mask (ready k)
          ∧ maskSome rm = true) := by
  constructor
  · rfl
  · intro k rm
    exact mem_readyEvents

theorem poll_zero_nonblocking_witness :
    (eqPoll ⟨[]⟩ (fun _ => ⟨false, false, false⟩) PollTimeout.zero).1 =
      some (pollEvents
        (eqPoll ⟨[]⟩ (fun _ => ⟨false, false, false⟩) PollTimeout.zero)) :=
  (poll_zero_nonblocking ⟨[]⟩ (fun _ => ⟨false, false, false⟩)).1

/-- Claim C8: a Handle that reports an error condition is delivered that
event once and then treated as deregistered — it is absent from the
registry after the poll, and no later poll delivers any event for it
until it is explicitly re-registered. -/
theorem error_event_delivered_once (q : QueueState) (ready : Nat → EventMask)
    (h : Nat) (rm : EventMask) (hnd : (keysOf q.registry).Nodup)
    (hmem : (h, rm) ∈ pollEvents (eqPoll q ready PollTimeout.zero))
    (herr : rm.er = true) :
    h ∉ keysOf (eqPoll q ready PollTimeout.zero).2.registry
    ∧ (∀ ready2 rm2, (h, rm2) ∉
        pollEvents (eqPoll (eqPoll q ready PollTimeout.zero).2 ready2
          PollTimeout.zero)) := by
  have hmem' : (h, rm) ∈ readyEvents ready q.registry := hmem
  obtain ⟨e, hein, hrm, _⟩ := mem_readyEvents.mp hmem'
  have herr' : (maskInter e.mask (ready h)).er = true := by rw [← hrm]; exact herr
  have hnot : h ∉ keysOf (dropErrored ready q.registry) :=
    not_mem_keysOf_dropErrored hnd hein herr'
  refine ⟨hnot, ?_⟩
  intro ready2 rm2 hcon
  obtain ⟨e2, hein2, _, _⟩ := mem_readyEvents.mp hcon
  exact hnot (mem_keysOf.mpr ⟨e2, hein2⟩)

theorem error_event_delivered_once_witness :
    (1 : Nat) ∉ keysOf (eqPoll ⟨[(1, ⟨⟨true, false, true⟩, 5⟩)]⟩
        (fun _ => ⟨true, true, true⟩) PollTimeout.zero).2.registry
    ∧ (1, (⟨true, false, true⟩ : EventMask)) ∉
        pollEvents (eqPoll (eqPoll ⟨[(1, ⟨⟨true, false, true⟩, 5⟩)]⟩
          (fun _ => ⟨true, true, true⟩) PollTimeout.zero).2
          (fun _ => ⟨true, true, true⟩) PollTimeout.zero) :=
  ⟨(error_event_delivered_once ⟨[(1, ⟨⟨true, false, true⟩, 5⟩)]⟩
      (fun _ => ⟨true, true, true⟩) 1 ⟨true, false, true⟩
      (by decide) (by decide) rfl).1,
   (error_event_delivered_once ⟨[(1, ⟨⟨true, false, true⟩, 5⟩)]⟩
      (fun _ => ⟨true, true, true⟩) 1 ⟨true, false, true⟩
      (by decide) (by decide) rfl).2 (fun _ => ⟨true, true, true⟩)
      ⟨true, false, true⟩⟩

theorem not_mem_dispatchInvoked {s : SysState} {h : Nat}
    (hcl : sysIsOpen s h = false) :
    ∀ (snapshot : List (Nat × EventMask)) (a : Nat),
      (h, a) ∉ dispatchInvoked s snapshot := by
  intro snapshot
  induction snapshot with
  | nil => intro a hcon; simp [dispatchInvoked] at hcon
  | cons p rest ih =>
      intro a hcon
      cases hop : sysIsOpen s p.1 with
      | true =>
          cases hl : lookupEntry s.q.registry p.1 with
          | some e =>
              rw [show dispatchInvoked s (p :: rest) =
                  (p.1, e.action) :: dispatchInvoked s rest from by
                simp [dispatchInvoked, hop, hl]] at hcon
              rcases List.mem_cons.mp hcon with heq | hmem
              · rw [Prod.mk.injEq] at heq
                rw [heq.1] at hcl
                rw [hcl] at hop
                exact Bool.noConfusion hop
              · exact ih a hmem
          | none =>
              rw [show dispatchInvoked s (p :: rest) = dispatchInvoked s rest from by
                simp [dispatchInvoked, hop, hl]] at hcon
              exact ih a hcon
      | false =>
          rw [show dispatchInvoked s (p :: rest) = dispatchInvoked s rest from by
            simp [dispatchInvoked, hop]] at hcon
          exact ih a hcon

theorem sysIsOpen_sysClose_self (s : SysState) (h : Nat) :
    sysIsOpen (sysClose s h) h = false := by
  by_cases hmem : h ∈ s.liveHandles
  · rw [show sysClose s h = ⟨removeNat s.liveHandles h, eqDeregister s.q h⟩ from by
      simp [sysClose, hmem]]
    simp [sysIsOpen, mem_removeNat]
  · rw [show sysClose s h = s from by simp [sysClose, hmem]]
    simp [sysIsOpen, hmem]

/-- Claim C9: the Multiplexer dispatch path never invokes a completion
action for a closed Handle — for every snapshot of queued dispatches, a
Handle whose open flag is false is silently skipped, and a Handle closed
just before the dispatch runs is likewise skipped, so closing a Handle
with a pending dispatch is safe. -/
theorem dispatch_skips_closed (s : SysState) (snapshot : List (Nat × EventMask))
    (h : Nat) (hcl : sysIsOpen s h = false) :
    (∀ a, (h, a) ∉ dispatchInvoked s snapshot)
    ∧ (∀ a, (h, a) ∉ dispatchInvoked (sysClose s h) snapshot) :=
  ⟨fun a => not_mem_dispatchInvoked hcl snapshot a,
   fun a => not_mem_dispatchInvoked (sysIsOpen_sysClose_self s h) snapshot a⟩

theorem dispatch_skips_closed_witness :
    sysIsOpen (⟨[2], ⟨[(1, ⟨⟨true, false, false⟩, 7⟩)]⟩⟩ : SysState) 1 = false
    ∧ (1, 7) ∉ dispatchInvoked ⟨[2], ⟨[(1, ⟨⟨true, false, false⟩, 7⟩)]⟩⟩
        [(1, ⟨true, false, false⟩)] :=
  ⟨by decide,
   (dispatch_skips_closed ⟨[2], ⟨[(1, ⟨⟨true, false, false⟩, 7⟩)]⟩⟩
      [(1, ⟨true, false, false⟩)] 1 (by decide)).1 7⟩
